import Mathlib

/-!
Verification of the FCRAG relevance pipeline (chunk splitter, online
deduplicator, reranker, and the ingestion orchestration) against its
natural-language specification.

The Python source is shallowly embedded: pure functions become Lean
functions, the stateful deduplicator threads its state explicitly, and
fallible paths return `Except`.  External collaborators (the jieba
tokenizer, hashlib md5, the simhash library, sklearn TF-IDF) are
parameters of the embedding, exactly as the spec treats them as
collaborator contracts.  Floating point arithmetic is idealized: score
arithmetic is modelled over `ℚ`, and the cosine-similarity comparison of
the embedding deduplicator (numpy float math including a square root) is
modelled over `ℝ`, which forces that one branch to be stated as a
relation rather than a computable function.
-/

/-! ## Sliding token windows (`TextSplitter._sliding_token_split`)

The Python loop

    start = 0
    while start < len(tokens):
        end = min(start + self.chunk_size, len(tokens))
        chunks.append(tokens[start:end])
        if end == len(tokens): break
        start += self.chunk_size - self.chunk_overlap

is embedded with explicit fuel: each iteration consumes one unit.  When
`step = chunk_size - chunk_overlap ≥ 1`, fuel `tokens.length` is enough
(proved below); when `step = 0` (overlap ≥ size) the Python loop never
terminates, which the fuel-indexed embedding makes visible by producing
`fuel` identical windows (see the claim about missing overlap
validation). -/

def slideAux (s step : ℕ) : ℕ → List α → List (List α)
  | 0, _ => []
  | fuel + 1, l =>
    if l.isEmpty then []
    else if l.length ≤ s then [l]
    else l.take s :: slideAux s step fuel (l.drop step)

/-- Token-level result of `_sliding_token_split` with `chunk_size = s` and
`chunk_overlap = o` (the source joins each window into a chunk string;
joining is applied separately in `slidingTokenSplit` below). -/
def slidingTokenWindows (s o : ℕ) (tokens : List α) : List (List α) :=
  slideAux s (s - o) tokens.length tokens

/-- Number of windows the sliding loop emits on `n` tokens: one window if
`n ≤ s`, else one full window plus one per further `step` of progress
until the end is reached. -/
def numWindows (s step n : ℕ) : ℕ :=
  if n = 0 then 0 else if n ≤ s then 1 else 2 + (n - s - 1) / step

theorem numWindows_step (s step n : ℕ) (hstep : 0 < step) (hss : step ≤ s)
    (h : s < n) : numWindows s step n = 1 + numWindows s step (n - step) := by
  unfold numWindows
  by_cases h2 : n - step ≤ s
  · -- exactly one more window after this one
    have hn0 : n ≠ 0 := by omega
    have hnm0 : ¬ n ≤ s := by omega
    have h3 : n - step ≠ 0 := by omega
    have hdiv : (n - s - 1) / step = 0 := by
      apply Nat.div_eq_of_lt; omega
    rw [if_neg hn0, if_neg hnm0, if_neg h3, if_pos h2, hdiv]
  · -- still more than one window to go
    have hn0 : n ≠ 0 := by omega
    have hnm0 : ¬ n ≤ s := by omega
    have h3 : n - step ≠ 0 := by omega
    rw [if_neg hn0, if_neg hnm0, if_neg h3, if_neg h2]
    have hx : n - s - 1 = (n - step - s - 1) + step := by omega
    rw [hx, Nat.add_div_right _ hstep]
    omega

theorem slideAux_eq_map_range {α : Type _} (s o : ℕ) (ho : o < s) :
    ∀ (fuel : ℕ) (l : List α), l.length ≤ fuel →
      slideAux s (s - o) fuel l =
        (List.range (numWindows s (s - o) l.length)).map
          (fun i => (l.drop (i * (s - o))).take s) := by
  intro fuel
  induction fuel with
  | zero =>
    intro l hl
    have : l = [] := by
      cases l with
      | nil => rfl
      | cons a t => simp at hl
    subst this
    simp [slideAux, numWindows]
  | succ fuel ih =>
    intro l hl
    by_cases hnil : l = []
    · subst hnil
      simp [slideAux, numWindows]
    · have hne : ¬ l.isEmpty := by simp [List.isEmpty_iff, hnil]
      by_cases hsmall : l.length ≤ s
      · have h0 : l.length ≠ 0 := fun hh => hnil (List.length_eq_zero.mp hh)
        rw [slideAux, if_neg (by simpa using hne), if_pos hsmall]
        rw [numWindows, if_neg h0, if_pos hsmall]
        have hr1 : List.range 1 = [0] := rfl
        rw [hr1, List.map_singleton, Nat.zero_mul, List.drop_zero,
          List.take_of_length_le hsmall]
      · have hstep : 0 < s - o := by omega
        have hlen : (l.drop (s - o)).length ≤ fuel := by
          simp only [List.length_drop]
          omega
        rw [slideAux, if_neg (by simpa using hne), if_neg hsmall]
        rw [ih (l.drop (s - o)) hlen]
        rw [List.length_drop]
        have hrec : numWindows s (s - o) l.length
            = 1 + numWindows s (s - o) (l.length - (s - o)) :=
          numWindows_step s (s - o) l.length hstep (by omega) (by omega)
        rw [hrec, Nat.add_comm 1, List.range_succ_eq_map]
        simp only [List.map_cons, List.map_map]
        congr 1
        · simp
        · apply List.map_congr_left
          intro i _
          simp only [Function.comp_apply, List.drop_drop]
          congr 2
          have : Nat.succ i * (s - o) = (s - o) + i * (s - o) := by
            rw [Nat.succ_mul]; omega
          omega

theorem numWindows_pos (s step n : ℕ) (hn : n ≠ 0) : 0 < numWindows s step n := by
  unfold numWindows
  rw [if_neg hn]
  by_cases h : n ≤ s
  · rw [if_pos h]; exact Nat.one_pos
  · rw [if_neg h]
    exact lt_of_lt_of_le (by norm_num) (Nat.le_add_right 2 _)

theorem numWindows_le_one (s step n : ℕ) (h : n ≤ s) : numWindows s step n ≤ 1 := by
  unfold numWindows
  by_cases hn : n = 0
  · rw [if_pos hn]; exact Nat.zero_le 1
  · rw [if_neg hn, if_pos h]

theorem numWindows_last_reaches (s step : ℕ) (hstep : 0 < step) (hss : step ≤ s) :
    ∀ n, n ≤ (numWindows s step n - 1) * step + s := by
  intro n
  induction n using Nat.strong_induction_on with
  | _ n ih =>
    by_cases hn : n = 0
    · subst hn; exact Nat.zero_le _
    · by_cases h : n ≤ s
      · have h1 : numWindows s step n = 1 := by
          unfold numWindows; rw [if_neg hn, if_pos h]
        rw [h1]; simpa using h
      · push_neg at h
        have hrec := numWindows_step s step n hstep hss h
        have ihn := ih (n - step) (by omega)
        rw [hrec]
        have h1 : 1 + numWindows s step (n - step) - 1
            = numWindows s step (n - step) := by omega
        rw [h1]
        have hKpos : 0 < numWindows s step (n - step) :=
          numWindows_pos s step (n - step) (by omega)
        have h2 : numWindows s step (n - step) * step
            = (numWindows s step (n - step) - 1) * step + step := by
          have hK : numWindows s step (n - step)
              = (numWindows s step (n - step) - 1) + 1 := by omega
          calc numWindows s step (n - step) * step
              = ((numWindows s step (n - step) - 1) + 1) * step := by rw [← hK]
            _ = (numWindows s step (n - step) - 1) * step + step := by
                rw [Nat.succ_mul]
        rw [h2]
        generalize (numWindows s step (n - step) - 1) * step = A at ihn ⊢
        omega

theorem numWindows_minimal (s step : ℕ) (hstep : 0 < step) (hss : step ≤ s) :
    ∀ i n, i + 1 < numWindows s step n → i * step + s < n := by
  intro i
  induction i with
  | zero =>
    intro n hi
    by_cases h : n ≤ s
    · have := numWindows_le_one s step n h; omega
    · simpa using Nat.lt_of_not_le h
  | succ i ih =>
    intro n hi
    have hsn : s < n := by
      by_contra hc
      have := numWindows_le_one s step n (Nat.le_of_not_lt hc)
      omega
    rw [numWindows_step s step n hstep hss hsn] at hi
    have hih := ih (n - step) (by omega)
    have hm : (i + 1) * step = i * step + step := Nat.succ_mul i step
    rw [hm]
    generalize i * step = A at hih ⊢
    omega

/-- Claim C2: with `chunk_size = s > 0` and `0 ≤ overlap = o < s`,
`_sliding_token_split` of a text tokenizing to `n > 0` tokens emits the
windows of `s` tokens starting at `0, step, 2·step, …` with
`step = s − o`; the final window is clipped to the remaining tokens
(`List.take` clips automatically), the last window reaches the end of
the token sequence, and no earlier window does (so the loop stops
exactly when a window first reaches the end). -/
theorem sliding_token_emits_stepped_windows {α : Type _} (s o : ℕ)
    (tokens : List α) (ho : o < s) (hn : tokens ≠ []) :
    slidingTokenWindows s o tokens =
      (List.range (numWindows s (s - o) tokens.length)).map
        (fun i => (tokens.drop (i * (s - o))).take s) ∧
    0 < numWindows s (s - o) tokens.length ∧
    tokens.length ≤ (numWindows s (s - o) tokens.length - 1) * (s - o) + s ∧
    (∀ i, i + 1 < numWindows s (s - o) tokens.length →
      i * (s - o) + s < tokens.length) := by
  refine ⟨?_, ?_, ?_, ?_⟩
  · exact slideAux_eq_map_range s o ho tokens.length tokens le_rfl
  · exact numWindows_pos s (s - o) tokens.length
      (fun hh => hn (List.length_eq_zero.mp hh))
  · exact numWindows_last_reaches s (s - o) (by omega) (by omega) tokens.length
  · exact fun i hi =>
      numWindows_minimal s (s - o) (by omega) (by omega) i tokens.length hi

set_option maxRecDepth 10000 in
/-- Witness for C2, the spec scenario: `chunk_size=128`, `overlap=32`, a
200-token text gives `step = 96` and exactly the two windows `[0,128)`
and `[96,200)`. -/
theorem sliding_token_emits_stepped_windows_witness :
    32 < 128 ∧ (List.range 200 : List ℕ) ≠ [] ∧
    slidingTokenWindows 128 32 (List.range 200) =
      [(List.range 200).take 128, ((List.range 200).drop 96).take 128] := by
  refine ⟨by omega, by simp, ?_⟩
  have h := (sliding_token_emits_stepped_windows 128 32 (List.range 200)
    (by omega) (by simp)).1
  rw [h]
  rfl

/-- The reconstruction described by the spec: keep the first chunk whole
and drop the first `o` (overlapping) tokens from every later chunk, then
concatenate. -/
def dropOverlapConcat (o : ℕ) : List (List α) → List α
  | [] => []
  | c :: rest => c ++ (rest.map (List.drop o)).flatten

theorem slideAux_join_drop {α : Type _} (s o : ℕ) (ho : o < s) :
    ∀ (fuel : ℕ) (l : List α), l.length ≤ fuel →
      ((slideAux s (s - o) fuel l).map (List.drop o)).flatten = l.drop o := by
  intro fuel
  induction fuel with
  | zero =>
    intro l hl
    have : l = [] := by
      cases l with
      | nil => rfl
      | cons a t => simp at hl
    subst this
    simp [slideAux]
  | succ fuel ih =>
    intro l hl
    by_cases hnil : l = []
    · subst hnil
      simp [slideAux]
    · have hne : ¬ l.isEmpty := by simp [List.isEmpty_iff, hnil]
      by_cases hsmall : l.length ≤ s
      · rw [slideAux, if_neg (by simpa using hne), if_pos hsmall]
        simp
      · have hlen : (l.drop (s - o)).length ≤ fuel := by
          simp only [List.length_drop]
          omega
        rw [slideAux, if_neg (by simpa using hne), if_neg hsmall]
        simp only [List.map_cons, List.flatten_cons]
        rw [ih (l.drop (s - o)) hlen]
        rw [List.drop_drop, List.drop_take]
        have hso : l.drop (s - o + o) = l.drop (o + (s - o)) := by
          congr 1; omega
        rw [hso, ← List.drop_drop, List.take_append_drop]

/-- Claim C6: for every token sequence, sliding-token splitting with
`chunk_size = s` and `overlap = o < s` round-trips: dropping the first
`o` tokens from every window after the first and concatenating all
windows reconstructs the original token sequence exactly. -/
theorem sliding_token_roundtrip {α : Type _} (s o : ℕ) (ho : o < s)
    (tokens : List α) :
    dropOverlapConcat o (slidingTokenWindows s o tokens) = tokens := by
  by_cases hnil : tokens = []
  · subst hnil
    rfl
  · have hjoin := slideAux_join_drop s o ho tokens.length tokens le_rfl
    have hchar := slideAux_eq_map_range s o ho tokens.length tokens le_rfl
    have hK : 0 < numWindows s (s - o) tokens.length :=
      numWindows_pos s (s - o) tokens.length
        (fun hh => hnil (List.length_eq_zero.mp hh))
    obtain ⟨K', hK'⟩ : ∃ K', numWindows s (s - o) tokens.length = K' + 1 :=
      ⟨numWindows s (s - o) tokens.length - 1, by omega⟩
    rw [hK', List.range_succ_eq_map, List.map_cons] at hchar
    simp only [Nat.zero_mul, List.drop_zero] at hchar
    unfold slidingTokenWindows
    cases hW : slideAux s (s - o) tokens.length tokens with
    | nil =>
      rw [hW] at hchar
      exact absurd hchar.symm (List.cons_ne_nil _ _)
    | cons c rest =>
      rw [hW] at hchar hjoin
      have hc : c = tokens.take s := (List.cons.injEq _ _ _ _ ▸ hchar).1
      simp only [List.map_cons, List.flatten_cons] at hjoin
      rw [dropOverlapConcat, hc]
      rw [hc] at hjoin
      have hos : o ≤ s := le_of_lt ho
      calc tokens.take s ++ (rest.map (List.drop o)).flatten
          = (tokens.take s).take o
            ++ ((tokens.take s).drop o ++ (rest.map (List.drop o)).flatten) := by
            rw [← List.append_assoc, List.take_append_drop]
        _ = (tokens.take s).take o ++ tokens.drop o := by rw [hjoin]
        _ = tokens.take o ++ tokens.drop o := by
            rw [List.take_take, min_eq_left hos]
        _ = tokens := List.take_append_drop o tokens

/-- Witness for C6 at a concrete input: `s = 5`, `o = 2`, a 12-token
sequence is reconstructed exactly. -/
theorem sliding_token_roundtrip_witness :
    2 < 5 ∧
    dropOverlapConcat 2 (slidingTokenWindows 5 2 (List.range 12)) =
      List.range 12 :=
  ⟨by omega, sliding_token_roundtrip 5 2 (by omega) (List.range 12)⟩

/-! ## Documents, metadata and the chunk splitter (`chunking/splitter.py`)

Python `str` operations used by the splitter (`strip`, `re.split` on a
character class, `''.join`) are given small character-list
implementations so every definition stays kernel-evaluable; Lean's
built-in `String.trim`/`String.split` compute the same values but do not
reduce inside the kernel.  The tokenizer (`utils/tokenizer.py` delegates
to the external jieba library, falling back to whitespace splitting) is
a parameter `tok : String → List String` of every splitting function,
exactly as the spec treats it as a deterministic collaborator
contract. -/

/-- Python `str.strip()`: remove leading and trailing whitespace. -/
def pyStrip (s : String) : String :=
  ⟨((s.data.dropWhile Char.isWhitespace).reverse.dropWhile
      Char.isWhitespace).reverse⟩

/-- Python `re.split` on a character class: split at every matching
character, keeping empty pieces between adjacent delimiters. -/
def splitCharsAux (p : Char → Bool) : List Char → List (List Char)
  | [] => [[]]
  | c :: rest =>
    if p c then [] :: splitCharsAux p rest
    else
      match splitCharsAux p rest with
      | [] => [[c]]
      | piece :: pieces => (c :: piece) :: pieces

def splitOnChars (p : Char → Bool) (s : String) : List String :=
  (splitCharsAux p s.data).map (fun l => ⟨l⟩)

/-- Python `''.join(chunk_tokens)`. -/
def joinTokens (l : List String) : String :=
  ⟨(l.map String.data).flatten⟩

/-- A metadata value: the chunk bookkeeping uses integers, the loader
fills in strings. -/
inductive MetaVal where
  | str (s : String)
  | int (n : ℕ)
deriving DecidableEq, Repr

/-- Python `d[k] = v` on a dict rendered as an association list:
overwrite the entry if the key is present, append otherwise. -/
def dictSet (m : List (String × MetaVal)) (k : String) (v : MetaVal) :
    List (String × MetaVal) :=
  if m.any (fun p => p.1 == k) then
    m.map (fun p => if p.1 == k then (k, v) else p)
  else m ++ [(k, v)]

/-- Python `d[k]` / `d.get(k)`. -/
def dictGet (k : String) (m : List (String × MetaVal)) : Option MetaVal :=
  (m.find? (fun p => p.1 == k)).map (fun p => p.2)

theorem dictGet_cons_of_pos (k : String) (q : String × MetaVal)
    (m : List (String × MetaVal)) (hp : (q.1 == k) = true) :
    dictGet k (q :: m) = some q.2 := by
  rw [dictGet,
    @List.find?_cons_of_pos _ (fun r : String × MetaVal => r.1 == k) q m hp]
  rfl

theorem dictGet_cons_of_neg (k : String) (q : String × MetaVal)
    (m : List (String × MetaVal)) (hp : ¬ (q.1 == k) = true) :
    dictGet k (q :: m) = dictGet k m := by
  rw [dictGet,
    @List.find?_cons_of_neg _ (fun r : String × MetaVal => r.1 == k) q m hp]
  rfl

theorem dictGet_dictSet_self (m : List (String × MetaVal)) (k : String)
    (v : MetaVal) : dictGet k (dictSet m k v) = some v := by
  unfold dictSet
  by_cases h : m.any (fun p => p.1 == k)
  · rw [if_pos h]
    induction m with
    | nil => simp at h
    | cons p rest ih =>
      by_cases hp : (p.1 == k) = true
      · have hrw : (if (p.1 == k) = true then (k, v) else p) = (k, v) :=
          if_pos hp
        rw [List.map_cons, hrw, dictGet_cons_of_pos k (k, v) _ (by simp)]
      · have hrest : rest.any (fun p => p.1 == k) := by
          simpa [List.any_cons, hp] using h
        have hrw : (if (p.1 == k) = true then (k, v) else p) = p := if_neg hp
        rw [List.map_cons, hrw, dictGet_cons_of_neg k p _ hp]
        exact ih hrest
  · rw [if_neg h]
    induction m with
    | nil =>
      rw [List.nil_append, dictGet_cons_of_pos k (k, v) _ (by simp)]
    | cons p rest ih =>
      have hp : ¬ (p.1 == k) = true := fun hc => h (by simp [List.any_cons, hc])
      have hrest : ¬ rest.any (fun p => p.1 == k) := fun hc =>
        h (by simp [List.any_cons, hc])
      rw [List.cons_append, dictGet_cons_of_neg k p _ hp]
      exact ih hrest

theorem dictGet_dictSet_ne (m : List (String × MetaVal)) (k k' : String)
    (v : MetaVal) (hk : k' ≠ k) : dictGet k' (dictSet m k v) = dictGet k' m := by
  have hkk : ¬ ((k : String) == k') = true := by
    simpa using fun hc => hk hc.symm
  unfold dictSet
  by_cases h : m.any (fun p => p.1 == k)
  · rw [if_pos h]
    clear h
    induction m with
    | nil => rfl
    | cons p rest ih =>
      by_cases hp : (p.1 == k) = true
      · have hp' : p.1 = k := by simpa using hp
        have h2 : ¬ (p.1 == k') = true := by rw [hp']; exact hkk
        have hrw : (if (p.1 == k) = true then (k, v) else p) = (k, v) :=
          if_pos hp
        rw [List.map_cons, hrw, dictGet_cons_of_neg k' (k, v) _ hkk,
          dictGet_cons_of_neg k' p _ h2]
        exact ih
      · have hrw : (if (p.1 == k) = true then (k, v) else p) = p := if_neg hp
        rw [List.map_cons, hrw]
        by_cases hq : (p.1 == k') = true
        · rw [dictGet_cons_of_pos k' p _ hq, dictGet_cons_of_pos k' p _ hq]
        · rw [dictGet_cons_of_neg k' p _ hq, dictGet_cons_of_neg k' p _ hq]
          exact ih
  · rw [if_neg h]
    rw [dictGet, List.find?_append]
    have h1 : List.find? (fun q : String × MetaVal => q.1 == k') [(k, v)]
        = none := by
      rw [@List.find?_cons_of_neg _ (fun r : String × MetaVal => r.1 == k')
        (k, v) [] hkk, List.find?_nil]
    rw [h1, Option.or_none, dictGet]

/-- The document record produced by the loader collaborator; only the
fields the core reads or writes are modelled. -/
structure Document where
  text : String
  domain : String
  metadata : List (String × MetaVal)
deriving DecidableEq, Repr

/-- The `chunking` section of `config.yaml`; `none` fields take the
`config.get` defaults of `TextSplitter.__init__`. -/
structure ChunkingConfig where
  strategy : Option String
  chunk_size : Option ℕ
  chunk_overlap : Option ℕ
deriving DecidableEq, Repr

structure TextSplitter where
  strategy : String
  chunk_size : ℕ
  chunk_overlap : ℕ
deriving DecidableEq, Repr

/-- `TextSplitter.__init__`: reads the three configuration values with
their defaults.  Note that it performs no validation whatsoever — in
particular `chunk_overlap ≥ chunk_size` is accepted. -/
def TextSplitter.init (cfg : ChunkingConfig) : TextSplitter :=
  { strategy := cfg.strategy.getD "sliding_token"
    chunk_size := cfg.chunk_size.getD 512
    chunk_overlap := cfg.chunk_overlap.getD 64 }

/-- `TextSplitter._sliding_token_split`: tokenize, window, and join each
window back into a chunk string with `''.join`. -/
def slidingTokenSplit (tok : String → List String) (s o : ℕ)
    (text : String) : List String :=
  (slidingTokenWindows s o (tok text)).map joinTokens

/-- Sentence-terminal punctuation of `_sentence_split`:
`re.split(r'[.!?。！？]', text)`. -/
def isSentencePunct (c : Char) : Bool :=
  c = '.' || c = '!' || c = '?' || c = '。' || c = '！' || c = '？'

/-- `TextSplitter._sentence_split`: split on sentence punctuation, trim,
drop empties, then greedily pack sentences while the cumulative token
count stays within `chunk_size`; flushing appends the stripped current
chunk.  Mirrors the Python accumulator loop exactly (including the
trailing-space concatenation `current_chunk += sentence + " "`). -/
def sentenceSplit (tok : String → List String) (cs : ℕ) (text : String) :
    List String :=
  let sentences := ((splitOnChars isSentencePunct text).map pyStrip).filter
    (fun s => s ≠ "")
  let acc := sentences.foldl
    (fun (acc : List String × String × ℕ) sentence =>
      let st := (tok sentence).length
      if cs < acc.2.2 + st ∧ acc.2.1 ≠ "" then
        (acc.1 ++ [pyStrip acc.2.1], sentence, st)
      else
        (acc.1, acc.2.1 ++ sentence ++ " ", acc.2.2 + st))
    ([], "", 0)
  if acc.2.1 ≠ "" then acc.1 ++ [pyStrip acc.2.1] else acc.1

/-- Whether a maximal whitespace run separates two paragraphs: the
`re.split(r'\n\s*\n', text)` separator pattern fires at a newline whose
following whitespace run contains another newline.  (The regex leaves
any whitespace after the run's last newline to the next piece; since
every piece is immediately stripped and empty pieces are dropped, both
readings produce the same paragraph list.) -/
def splitParasAux : List Char → List Char → List (List Char)
  | [], cur => [cur.reverse]
  | c :: rest, cur =>
    if c = '\n' ∧ (rest.takeWhile Char.isWhitespace).any (fun d => d = '\n')
    then cur.reverse :: splitParasAux (rest.dropWhile Char.isWhitespace) []
    else splitParasAux rest (c :: cur)
termination_by l _ => l.length
decreasing_by
  · simp only [List.length_cons]
    exact Nat.lt_succ_of_le (List.dropWhile_sublist _).length_le
  · simp [Nat.lt_succ_self]

/-- `re.split(r'\n\s*\n', text)` followed by per-piece strip-and-filter,
as in `_paragraph_split`. -/
def paragraphsOf (text : String) : List String :=
  (((splitParasAux text.data []).map (fun l => (⟨l⟩ : String))).map
    pyStrip).filter (fun s => s ≠ "")

/-- `TextSplitter._paragraph_split`: blank-line split then the greedy
packing loop, joining with blank lines. -/
def paragraphSplit (tok : String → List String) (cs : ℕ) (text : String) :
    List String :=
  let paragraphs := paragraphsOf text
  let acc := paragraphs.foldl
    (fun (acc : List String × String × ℕ) paragraph =>
      let pt := (tok paragraph).length
      if cs < acc.2.2 + pt ∧ acc.2.1 ≠ "" then
        (acc.1 ++ [pyStrip acc.2.1], paragraph, pt)
      else
        (acc.1,
          (if acc.2.1 ≠ "" then acc.2.1 ++ "\n\n" ++ paragraph else paragraph),
          acc.2.2 + pt))
    ([], "", 0)
  if acc.2.1 ≠ "" then acc.1 ++ [pyStrip acc.2.1] else acc.1

/-- `TextSplitter._hybrid_split`: paragraph split, escalate over-long
paragraphs to sentence split and over-long sentences to sliding-token
split, then greedily re-merge small pieces under the token budget. -/
def hybridSplit (tok : String → List String) (cs o : ℕ) (text : String) :
    List String :=
  let paragraphs := paragraphSplit tok cs text
  let pieces := paragraphs.foldl
    (fun (acc : List String) paragraph =>
      if cs < (tok paragraph).length then
        (sentenceSplit tok cs paragraph).foldl
          (fun (acc2 : List String) sentenceChunk =>
            if cs < (tok sentenceChunk).length then
              acc2 ++ slidingTokenSplit tok cs o sentenceChunk
            else acc2 ++ [sentenceChunk])
          acc
      else acc ++ [paragraph])
    []
  let merged := pieces.foldl
    (fun (acc : List String × String × ℕ) chunk =>
      let ct := (tok chunk).length
      if acc.2.2 + ct ≤ cs then
        (acc.1,
          (if acc.2.1 ≠ "" then acc.2.1 ++ "\n\n" ++ chunk else chunk),
          acc.2.2 + ct)
      else
        ((if acc.2.1 ≠ "" then acc.1 ++ [acc.2.1] else acc.1), chunk, ct))
    ([], "", 0)
  if merged.2.1 ≠ "" then merged.1 ++ [merged.2.1] else merged.1

/-- The chunk-decoration loop of `TextSplitter.split`: each chunk text
becomes a (deep) copy of the document carrying the chunk text,
`metadata['chunk_index'] = i` and `metadata['chunk_total'] = len(chunks)`. -/
def attachMeta (doc : Document) (chunks : List String) : List Document :=
  chunks.enum.map (fun p =>
    { doc with
        text := p.2
        metadata := dictSet (dictSet doc.metadata "chunk_index"
          (MetaVal.int p.1)) "chunk_total" (MetaVal.int chunks.length) })

inductive SplitError where
  | unknownStrategy
deriving DecidableEq, Repr

/-- `TextSplitter.split`: empty/whitespace-only text yields no chunks;
otherwise dispatch on the strategy string and decorate the chunk texts. -/
def TextSplitter.split (tok : String → List String) (sp : TextSplitter)
    (doc : Document) : Except SplitError (List Document) :=
  if pyStrip doc.text = "" then .ok []
  else if sp.strategy = "sliding_token" then
    .ok (attachMeta doc (slidingTokenSplit tok sp.chunk_size sp.chunk_overlap
      doc.text))
  else if sp.strategy = "sentence" then
    .ok (attachMeta doc (sentenceSplit tok sp.chunk_size doc.text))
  else if sp.strategy = "paragraph" then
    .ok (attachMeta doc (paragraphSplit tok sp.chunk_size doc.text))
  else if sp.strategy = "hybrid" then
    .ok (attachMeta doc (hybridSplit tok sp.chunk_size sp.chunk_overlap
      doc.text))
  else .error .unknownStrategy

/-- Claim C3 (code bug): the spec requires `overlap ≥ chunk_size` to raise
a fatal configuration error at construction, but `TextSplitter.__init__`
performs no validation: the configuration `chunk_size = 10,
chunk_overlap = 10` is accepted, and the sliding-token loop then makes
no progress — its `start` pointer advances by `chunk_size −
chunk_overlap = 0` per iteration, so on any text of more than
`chunk_size` tokens it emits one identical window per loop iteration,
for every iteration bound `fuel`: the Python `while` loop never
terminates. -/
theorem overlap_ge_size_accepted_and_loops_forever :
    TextSplitter.init ⟨some "sliding_token", some 10, some 10⟩
      = { strategy := "sliding_token", chunk_size := 10, chunk_overlap := 10 }
    ∧ ∀ fuel, slideAux 10 (10 - 10) fuel (List.range 11)
        = List.replicate fuel ((List.range 11).take 10) := by
  refine ⟨rfl, ?_⟩
  intro fuel
  induction fuel with
  | zero => rfl
  | succ fuel ih =>
    rw [slideAux, if_neg (by simp), if_neg (by simp),
      Nat.sub_self, List.drop_zero, ih, List.replicate_succ]

theorem attachMeta_enumeration (doc : Document) (chunks : List String) :
    ((attachMeta doc chunks).map (fun c => dictGet "chunk_index" c.metadata)
      = (List.range (attachMeta doc chunks).length).map
          (fun i => some (MetaVal.int i))) ∧
    ∀ c ∈ attachMeta doc chunks,
      dictGet "chunk_total" c.metadata
        = some (MetaVal.int (attachMeta doc chunks).length) := by
  have hlen : (attachMeta doc chunks).length = chunks.length := by
    simp [attachMeta]
  constructor
  · rw [hlen]
    unfold attachMeta
    rw [List.map_map]
    have h1 : ((fun c : Document => dictGet "chunk_index" c.metadata) ∘
        (fun p : ℕ × String =>
          { doc with
              text := p.2
              metadata := dictSet (dictSet doc.metadata "chunk_index"
                (MetaVal.int p.1)) "chunk_total"
                (MetaVal.int chunks.length) }))
        = fun p : ℕ × String => some (MetaVal.int p.1) := by
      funext p
      show dictGet "chunk_index" (dictSet (dictSet doc.metadata "chunk_index"
        (MetaVal.int p.1)) "chunk_total" (MetaVal.int chunks.length))
        = some (MetaVal.int p.1)
      rw [dictGet_dictSet_ne _ _ _ _ (by decide), dictGet_dictSet_self]
    rw [h1]
    have h2 : (fun p : ℕ × String => some (MetaVal.int p.1))
        = (fun i : ℕ => some (MetaVal.int i)) ∘ Prod.fst := rfl
    rw [h2, ← List.map_map, List.enum_map_fst]
  · intro c hc
    rw [hlen]
    obtain ⟨p, hp, rfl⟩ := List.mem_map.mp hc
    show dictGet "chunk_total" (dictSet (dictSet doc.metadata "chunk_index"
      (MetaVal.int p.1)) "chunk_total" (MetaVal.int chunks.length))
      = some (MetaVal.int chunks.length)
    rw [dictGet_dictSet_self]

/-- Claim C4: for every configured strategy, whenever `split` succeeds
with a non-empty chunk list, the chunks' `metadata.chunk_index` values
enumerate `0 .. N-1` exactly once in order, and `metadata.chunk_total`
equals `N` on every chunk of the document. -/
theorem split_chunk_index_enumeration (tok : String → List String)
    (sp : TextSplitter) (doc : Document) (cs : List Document)
    (h : TextSplitter.split tok sp doc = .ok cs) (hne : cs ≠ []) :
    (cs.map (fun c => dictGet "chunk_index" c.metadata)
      = (List.range cs.length).map (fun i => some (MetaVal.int i))) ∧
    ∀ c ∈ cs, dictGet "chunk_total" c.metadata
      = some (MetaVal.int cs.length) := by
  unfold TextSplitter.split at h
  by_cases h0 : pyStrip doc.text = ""
  · rw [if_pos h0] at h
    injection h with h'
    exact absurd h'.symm hne
  · rw [if_neg h0] at h
    by_cases h1 : sp.strategy = "sliding_token"
    · rw [if_pos h1] at h
      injection h with h'
      rw [← h']
      exact attachMeta_enumeration doc _
    · rw [if_neg h1] at h
      by_cases h2 : sp.strategy = "sentence"
      · rw [if_pos h2] at h
        injection h with h'
        rw [← h']
        exact attachMeta_enumeration doc _
      · rw [if_neg h2] at h
        by_cases h3 : sp.strategy = "paragraph"
        · rw [if_pos h3] at h
          injection h with h'
          rw [← h']
          exact attachMeta_enumeration doc _
        · rw [if_neg h3] at h
          by_cases h4 : sp.strategy = "hybrid"
          · rw [if_pos h4] at h
            injection h with h'
            rw [← h']
            exact attachMeta_enumeration doc _
          · rw [if_neg h4] at h
            cases h

/-- Witness for C4: a one-chunk sliding-token split of a concrete
document carries `chunk_index = 0` and `chunk_total = 1`. -/
theorem split_chunk_index_enumeration_witness :
    ((([⟨"hello", "d", [("source", MetaVal.str "f"), ("chunk_index",
        MetaVal.int 0), ("chunk_total", MetaVal.int 1)]⟩] :
        List Document).map (fun c => dictGet "chunk_index" c.metadata))
      = (List.range 1).map (fun i => some (MetaVal.int i))) ∧
    ∀ c ∈ ([⟨"hello", "d", [("source", MetaVal.str "f"), ("chunk_index",
        MetaVal.int 0), ("chunk_total", MetaVal.int 1)]⟩] : List Document),
      dictGet "chunk_total" c.metadata = some (MetaVal.int 1) :=
  split_chunk_index_enumeration (fun s => [s]) ⟨"sliding_token", 2, 1⟩
    ⟨"hello", "d", [("source", MetaVal.str "f")]⟩ _ rfl (by decide)

/-! ## Deduplicator (`utils/dedup.py`)

`hashlib.md5` and the simhash library are external collaborators and
enter as parameters; the md5 fingerprint is an opaque string-valued
function, the simhash fingerprint an opaque numeric function together
with its Hamming distance.  The embedding strategy's numpy float
arithmetic (L2 normalization and dot products) is idealized over `ℝ`:
vectors carry rational components and the cosine-similarity test is a
real-number comparison, so `is_duplicate` as a whole is embedded as a
(deterministic) step relation `IsDuplicate` rather than a function. -/

structure HashLib where
  md5 : String → String
  simhash : String → ℕ
  hamming : ℕ → ℕ → ℕ

/-- The `dedup` section of `config.yaml` after `Deduplicator.__init__`
reads it (defaults `md5`, `1.0`, `3`, `0.95`). -/
structure DedupConfig where
  strategy : String
  md5_threshold : ℚ
  simhash_threshold : ℤ
  embedding_threshold : ℚ
deriving DecidableEq, Repr

/-- The three seen-item stores of a `Deduplicator` instance.  The Python
`seen_md5s` set is rendered as its insertion-ordered list of distinct
elements; membership is what the code observes. -/
structure DedupState where
  seen_md5s : List String
  seen_simhashes : List ℕ
  seen_embeddings : List (List ℚ)
deriving DecidableEq, Repr

/-- `Deduplicator._is_md5_duplicate`: hash the text, test set
membership, record on first sighting. -/
def isMd5Duplicate (L : HashLib) (seen : List String) (text : String) :
    Bool × List String :=
  let h := L.md5 text
  if h ∈ seen then (true, seen) else (false, seen ++ [h])

/-- `Deduplicator._is_simhash_duplicate`: duplicate when the Hamming
distance to any stored fingerprint is at most the threshold, otherwise
record the fingerprint. -/
def isSimhashDuplicate (L : HashLib) (t : ℤ) (seen : List ℕ) (text : String) :
    Bool × List ℕ :=
  let fp := L.simhash text
  if seen.any (fun sh => decide ((L.hamming sh fp : ℤ) ≤ t)) then (true, seen)
  else (false, seen ++ [fp])

/-- `np.dot` on rational-component vectors. -/
def dotQ (u v : List ℚ) : ℚ :=
  (List.zipWith (fun a b => a * b) u v).sum

/-- The cosine similarity `_is_embedding_duplicate` computes: the dot
product of the two L2-normalized vectors, i.e.
`dot u v / (‖u‖ · ‖v‖)`.  (On a zero vector the Python code divides by
zero and produces NaN, which compares false against every threshold;
the claims below therefore restrict to vectors with a non-zero entry.) -/
noncomputable def cosSim (u v : List ℚ) : ℝ :=
  (dotQ u v : ℝ) / (Real.sqrt (dotQ u u : ℝ) * Real.sqrt (dotQ v v : ℝ))

theorem dotQ_self_nonneg (v : List ℚ) : 0 ≤ dotQ v v := by
  induction v with
  | nil => simp [dotQ]
  | cons a l ih =>
    have : dotQ (a :: l) (a :: l) = a * a + dotQ l l := by
      simp [dotQ]
    rw [this]
    exact add_nonneg (mul_self_nonneg a) ih

theorem dotQ_self_pos (v : List ℚ) (h : ∃ x ∈ v, x ≠ 0) : 0 < dotQ v v := by
  induction v with
  | nil => simp at h
  | cons a l ih =>
    have hd : dotQ (a :: l) (a :: l) = a * a + dotQ l l := by
      simp [dotQ]
    rw [hd]
    obtain ⟨x, hx, hx0⟩ := h
    rcases List.mem_cons.mp hx with rfl | hxl
    · exact add_pos_of_pos_of_nonneg (mul_self_pos.mpr hx0) (dotQ_self_nonneg l)
    · exact add_pos_of_nonneg_of_pos (mul_self_nonneg a) (ih ⟨x, hxl, hx0⟩)

/-- A vector with a non-zero entry has cosine similarity `1` with
itself. -/
theorem cosSim_self (v : List ℚ) (h : ∃ x ∈ v, x ≠ 0) : cosSim v v = 1 := by
  have hp : 0 < dotQ v v := dotQ_self_pos v h
  have hpR : (0 : ℝ) < (dotQ v v : ℝ) := by exact_mod_cast hp
  unfold cosSim
  rw [Real.mul_self_sqrt (le_of_lt hpR)]
  exact div_self (ne_of_gt hpR)

/-- One call of `Deduplicator._is_embedding_duplicate` at threshold `t`:
first index `seen`, then probe `emb`, then the returned boolean and the
post-state of `self.seen_embeddings`.  The three constructors are the
three return paths of the Python method. -/
inductive EmbDupStep (t : ℚ) : List (List ℚ) → List ℚ → Bool →
    List (List ℚ) → Prop where
  | first (emb : List ℚ) : EmbDupStep t [] emb false [emb]
  | dup (seen : List (List ℚ)) (emb : List ℚ) (hne : seen ≠ [])
      (h : ∃ u ∈ seen, (t : ℝ) ≤ cosSim u emb) :
      EmbDupStep t seen emb true seen
  | fresh (seen : List (List ℚ)) (emb : List ℚ) (hne : seen ≠ [])
      (h : ∀ u ∈ seen, ¬ (t : ℝ) ≤ cosSim u emb) :
      EmbDupStep t seen emb false (seen ++ [emb])

inductive DedupError where
  | missingEmbedding
  | unknownStrategy
deriving DecidableEq, Repr

/-- One call of `Deduplicator.is_duplicate`: strategy dispatch on the
configured string, a `ValueError` when the embedding strategy receives
no vector, and a `ValueError` on an unknown strategy.  Indices: pre-state,
document, optional embedding, result, post-state. -/
inductive IsDuplicate (L : HashLib) (cfg : DedupConfig) :
    DedupState → Document → Option (List ℚ) → Except DedupError Bool →
    DedupState → Prop where
  | md5 (st : DedupState) (doc : Document) (vec : Option (List ℚ))
      (hs : cfg.strategy = "md5") :
      IsDuplicate L cfg st doc vec
        (.ok (isMd5Duplicate L st.seen_md5s doc.text).1)
        { st with seen_md5s := (isMd5Duplicate L st.seen_md5s doc.text).2 }
  | simhash (st : DedupState) (doc : Document) (vec : Option (List ℚ))
      (hs : cfg.strategy = "simhash") :
      IsDuplicate L cfg st doc vec
        (.ok (isSimhashDuplicate L cfg.simhash_threshold st.seen_simhashes
          doc.text).1)
        { st with seen_simhashes := (isSimhashDuplicate L
            cfg.simhash_threshold st.seen_simhashes doc.text).2 }
  | embeddingMissing (st : DedupState) (doc : Document)
      (hs : cfg.strategy = "embedding") :
      IsDuplicate L cfg st doc none (.error .missingEmbedding) st
  | embedding (st : DedupState) (doc : Document) (v : List ℚ) (b : Bool)
      (seen' : List (List ℚ)) (hs : cfg.strategy = "embedding")
      (hstep : EmbDupStep cfg.embedding_threshold st.seen_embeddings v b
        seen') :
      IsDuplicate L cfg st doc (some v) (.ok b)
        { st with seen_embeddings := seen' }
  | unknown (st : DedupState) (doc : Document) (vec : Option (List ℚ))
      (h1 : cfg.strategy ≠ "md5") (h2 : cfg.strategy ≠ "simhash")
      (h3 : cfg.strategy ≠ "embedding") :
      IsDuplicate L cfg st doc vec (.error .unknownStrategy) st

/-- Claim C1: for each strategy in `{md5, simhash, embedding}`,
`is_duplicate` is check-and-insert: on a chunk whose fingerprint has not
been seen by this instance it records the fingerprint and returns
false, and an immediately repeated call with identical content (and,
for the embedding strategy, the identical vector with a non-zero entry)
returns true without adding to the stored state.  The similarity
strategies need their configured thresholds to be meaningful bounds: a
non-negative Hamming bound and a cosine bound `≤ 1` (the spec's
defaults are `3` and `0.95`); `hH` is the defining property of the
external Hamming distance. -/
theorem is_duplicate_check_and_insert (L : HashLib)
    (hH : ∀ x, L.hamming x x = 0) :
    (∀ (cfg : DedupConfig) (st : DedupState) (doc : Document)
        (vec : Option (List ℚ)), cfg.strategy = "md5" →
      L.md5 doc.text ∉ st.seen_md5s →
      (IsDuplicate L cfg st doc vec (.ok false)
          { st with seen_md5s := st.seen_md5s ++ [L.md5 doc.text] } ∧
        IsDuplicate L cfg
          { st with seen_md5s := st.seen_md5s ++ [L.md5 doc.text] } doc vec
          (.ok true)
          { st with seen_md5s := st.seen_md5s ++ [L.md5 doc.text] })) ∧
    (∀ (cfg : DedupConfig) (st : DedupState) (doc : Document)
        (vec : Option (List ℚ)), cfg.strategy = "simhash" →
      0 ≤ cfg.simhash_threshold →
      (∀ fp ∈ st.seen_simhashes,
        ¬ ((L.hamming fp (L.simhash doc.text) : ℤ) ≤ cfg.simhash_threshold)) →
      (IsDuplicate L cfg st doc vec (.ok false)
          { st with seen_simhashes :=
              st.seen_simhashes ++ [L.simhash doc.text] } ∧
        IsDuplicate L cfg
          { st with seen_simhashes :=
              st.seen_simhashes ++ [L.simhash doc.text] } doc vec (.ok true)
          { st with seen_simhashes :=
              st.seen_simhashes ++ [L.simhash doc.text] })) ∧
    (∀ (cfg : DedupConfig) (st : DedupState) (doc : Document) (v : List ℚ),
      cfg.strategy = "embedding" →
      cfg.embedding_threshold ≤ 1 →
      (∃ x ∈ v, x ≠ 0) →
      (∀ u ∈ st.seen_embeddings,
        ¬ (cfg.embedding_threshold : ℝ) ≤ cosSim u v) →
      (IsDuplicate L cfg st doc (some v) (.ok false)
          { st with seen_embeddings := st.seen_embeddings ++ [v] } ∧
        IsDuplicate L cfg
          { st with seen_embeddings := st.seen_embeddings ++ [v] } doc
          (some v) (.ok true)
          { st with seen_embeddings := st.seen_embeddings ++ [v] })) := by
  refine ⟨?_, ?_, ?_⟩
  · -- md5
    intro cfg st doc vec hs hmem
    have hfn : isMd5Duplicate L st.seen_md5s doc.text
        = (false, st.seen_md5s ++ [L.md5 doc.text]) := by
      unfold isMd5Duplicate
      rw [if_neg hmem]
    have hfn2 : isMd5Duplicate L (st.seen_md5s ++ [L.md5 doc.text]) doc.text
        = (true, st.seen_md5s ++ [L.md5 doc.text]) := by
      unfold isMd5Duplicate
      rw [if_pos (List.mem_append_right _ (List.mem_singleton.mpr rfl))]
    constructor
    · have h0 := @IsDuplicate.md5 L cfg st doc vec hs
      rw [hfn] at h0
      exact h0
    · have h0 := @IsDuplicate.md5 L cfg
        { st with seen_md5s := st.seen_md5s ++ [L.md5 doc.text] } doc vec hs
      rw [show ({ st with seen_md5s := st.seen_md5s ++ [L.md5 doc.text] }
        : DedupState).seen_md5s = st.seen_md5s ++ [L.md5 doc.text] from rfl,
        hfn2] at h0
      exact h0
  · -- simhash
    intro cfg st doc vec hs ht hfreshh
    have hcond : (st.seen_simhashes.any (fun sh =>
        decide ((L.hamming sh (L.simhash doc.text) : ℤ)
          ≤ cfg.simhash_threshold))) = false := by
      rw [List.any_eq_false]
      intro fp hfp
      simpa using hfreshh fp hfp
    have hfn : isSimhashDuplicate L cfg.simhash_threshold st.seen_simhashes
        doc.text = (false, st.seen_simhashes ++ [L.simhash doc.text]) := by
      unfold isSimhashDuplicate
      rw [if_neg (by simp [hcond])]
    have hcond2 : ((st.seen_simhashes ++ [L.simhash doc.text]).any (fun sh =>
        decide ((L.hamming sh (L.simhash doc.text) : ℤ)
          ≤ cfg.simhash_threshold))) = true := by
      rw [List.any_eq_true]
      refine ⟨L.simhash doc.text,
        List.mem_append_right _ (List.mem_singleton.mpr rfl), ?_⟩
      simp [hH, ht]
    have hfn2 : isSimhashDuplicate L cfg.simhash_threshold
        (st.seen_simhashes ++ [L.simhash doc.text]) doc.text
        = (true, st.seen_simhashes ++ [L.simhash doc.text]) := by
      unfold isSimhashDuplicate
      rw [if_pos (by simp [hcond2])]
    constructor
    · have h0 := @IsDuplicate.simhash L cfg st doc vec hs
      rw [hfn] at h0
      exact h0
    · have h0 := @IsDuplicate.simhash L cfg
        { st with seen_simhashes := st.seen_simhashes ++ [L.simhash doc.text] }
        doc vec hs
      rw [show ({ st with seen_simhashes :=
          st.seen_simhashes ++ [L.simhash doc.text] }
          : DedupState).seen_simhashes
          = st.seen_simhashes ++ [L.simhash doc.text] from rfl, hfn2] at h0
      exact h0
  · -- embedding
    intro cfg st doc v hs ht hv hfreshh
    constructor
    · have hstep : EmbDupStep cfg.embedding_threshold st.seen_embeddings v
          false (st.seen_embeddings ++ [v]) := by
        rcases hemp : st.seen_embeddings with _ | ⟨w, rest⟩
        · rw [List.nil_append]
          exact EmbDupStep.first v
        · exact EmbDupStep.fresh _ v (by simp) (hemp ▸ hfreshh)
      exact @IsDuplicate.embedding L cfg st doc v false _ hs hstep
    · have hmem : v ∈ st.seen_embeddings ++ [v] :=
        List.mem_append_right _ (List.mem_singleton.mpr rfl)
      have hsim : (cfg.embedding_threshold : ℝ) ≤ cosSim v v := by
        rw [cosSim_self v hv]
        exact_mod_cast ht
      have hstep : EmbDupStep cfg.embedding_threshold
          (st.seen_embeddings ++ [v]) v true (st.seen_embeddings ++ [v]) :=
        EmbDupStep.dup _ v (by simp) ⟨v, hmem, hsim⟩
      exact @IsDuplicate.embedding L cfg
        { st with seen_embeddings := st.seen_embeddings ++ [v] } doc v true _
        hs hstep

/-- Witness for C1: a concrete hash library and fresh deduplicator run
for each of the three strategies. -/
theorem is_duplicate_check_and_insert_witness :
    (IsDuplicate ⟨fun s => s, fun _ => 0, fun _ _ => 0⟩ ⟨"md5", 1, 3, 1⟩
        ⟨[], [], []⟩ ⟨"t", "d", []⟩ none (.ok false) ⟨["t"], [], []⟩ ∧
      IsDuplicate ⟨fun s => s, fun _ => 0, fun _ _ => 0⟩ ⟨"md5", 1, 3, 1⟩
        ⟨["t"], [], []⟩ ⟨"t", "d", []⟩ none (.ok true) ⟨["t"], [], []⟩) ∧
    (IsDuplicate ⟨fun s => s, fun _ => 0, fun _ _ => 0⟩ ⟨"simhash", 1, 3, 1⟩
        ⟨[], [], []⟩ ⟨"t", "d", []⟩ none (.ok false) ⟨[], [0], []⟩ ∧
      IsDuplicate ⟨fun s => s, fun _ => 0, fun _ _ => 0⟩ ⟨"simhash", 1, 3, 1⟩
        ⟨[], [0], []⟩ ⟨"t", "d", []⟩ none (.ok true) ⟨[], [0], []⟩) ∧
    (IsDuplicate ⟨fun s => s, fun _ => 0, fun _ _ => 0⟩ ⟨"embedding", 1, 3, 1⟩
        ⟨[], [], []⟩ ⟨"t", "d", []⟩ (some [1]) (.ok false)
        ⟨[], [], [[1]]⟩ ∧
      IsDuplicate ⟨fun s => s, fun _ => 0, fun _ _ => 0⟩
        ⟨"embedding", 1, 3, 1⟩ ⟨[], [], [[1]]⟩ ⟨"t", "d", []⟩ (some [1])
        (.ok true) ⟨[], [], [[1]]⟩) := by
  have h := is_duplicate_check_and_insert
    ⟨fun s => s, fun _ => 0, fun _ _ => 0⟩ (fun _ => rfl)
  refine ⟨?_, ?_, ?_⟩
  · exact h.1 ⟨"md5", 1, 3, 1⟩ ⟨[], [], []⟩ ⟨"t", "d", []⟩ none rfl (by simp)
  · exact h.2.1 ⟨"simhash", 1, 3, 1⟩ ⟨[], [], []⟩ ⟨"t", "d", []⟩ none rfl
      (by decide) (by simp)
  · exact h.2.2 ⟨"embedding", 1, 3, 1⟩ ⟨[], [], []⟩ ⟨"t", "d", []⟩ [1] rfl
      (by decide) ⟨1, by simp, by norm_num⟩ (by simp)

/-- Claim C7: embedding-dedup threshold monotonicity.  For a
deduplicator holding exactly one stored vector `u` and a probe `v`
whose cosine similarity to it is `s` (both vectors non-zero, so the
similarity is an actual number rather than Python NaN), every threshold
`t1 ≤ s` makes the probe a duplicate (returning true and storing
nothing), every threshold `t2 > s` makes the same probe a non-duplicate
(returning false and appending the probe), and the first vector ever
checked is always accepted.  Each behaviour is characterized by an iff,
so it is the only one the step relation allows. -/
theorem embedding_threshold_monotonicity (u v : List ℚ) (s : ℝ) (t1 t2 : ℚ)
    (_hu : ∃ x ∈ u, x ≠ 0) (_hv : ∃ x ∈ v, x ≠ 0)
    (hs : cosSim u v = s) (h1 : (t1 : ℝ) ≤ s) (h2 : s < (t2 : ℝ)) :
    (∀ (b : Bool) (seen' : List (List ℚ)),
      EmbDupStep t1 [u] v b seen' ↔ b = true ∧ seen' = [u]) ∧
    (∀ (b : Bool) (seen' : List (List ℚ)),
      EmbDupStep t2 [u] v b seen' ↔ b = false ∧ seen' = [u, v]) ∧
    (∀ (w : List ℚ) (b : Bool) (seen' : List (List ℚ)),
      EmbDupStep t1 [] w b seen' ↔ b = false ∧ seen' = [w]) := by
  refine ⟨?_, ?_, ?_⟩
  · intro b seen'
    constructor
    · intro h
      cases h with
      | dup _ _ hne hex => exact ⟨rfl, rfl⟩
      | fresh _ _ hne hall =>
        exact absurd (hs ▸ h1) (hall u (List.mem_singleton.mpr rfl))
    · rintro ⟨rfl, rfl⟩
      exact EmbDupStep.dup [u] v (by simp)
        ⟨u, List.mem_singleton.mpr rfl, hs ▸ h1⟩
  · intro b seen'
    constructor
    · intro h
      cases h with
      | dup _ _ hne hex =>
        obtain ⟨w, hw, hle⟩ := hex
        rw [List.mem_singleton.mp hw, hs] at hle
        exact absurd hle (not_le.mpr h2)
      | fresh _ _ hne hall => exact ⟨rfl, rfl⟩
    · rintro ⟨rfl, rfl⟩
      have h : EmbDupStep t2 [u] v false ([u] ++ [v]) :=
        EmbDupStep.fresh [u] v (by simp)
          (fun w hw => by
            rw [List.mem_singleton.mp hw, hs]
            exact not_le.mpr h2)
      simpa using h
  · intro w b seen'
    constructor
    · intro h
      cases h with
      | first => exact ⟨rfl, rfl⟩
      | dup _ _ hne _ => exact absurd rfl hne
      | fresh _ _ hne _ => exact absurd rfl hne
    · rintro ⟨rfl, rfl⟩
      exact EmbDupStep.first w

/-- Witness for C7 at concrete vectors `u = v = [1]` (similarity 1) with
thresholds `t1 = 0` and `t2 = 2`. -/
theorem embedding_threshold_monotonicity_witness :
    (∀ (b : Bool) (seen' : List (List ℚ)),
      EmbDupStep 0 [[1]] [1] b seen' ↔ b = true ∧ seen' = [[1]]) ∧
    (∀ (b : Bool) (seen' : List (List ℚ)),
      EmbDupStep 2 [[1]] [1] b seen' ↔ b = false ∧ seen' = [[1], [1]]) ∧
    (∀ (w : List ℚ) (b : Bool) (seen' : List (List ℚ)),
      EmbDupStep 0 [] w b seen' ↔ b = false ∧ seen' = [w]) :=
  embedding_threshold_monotonicity [1] [1] 1 0 2
    ⟨1, by simp, by norm_num⟩ ⟨1, by simp, by norm_num⟩
    (cosSim_self [1] ⟨1, by simp, by norm_num⟩) (by norm_num) (by norm_num)

/-- Claim C8: calling `is_duplicate` under the embedding strategy
without a vector fails with the usage `ValueError`, and only that call
fails: the post-state is exactly the pre-state, so none of the stored
hashes, simhashes or embeddings change. -/
theorem missing_vector_usage_error (L : HashLib) (cfg : DedupConfig)
    (st : DedupState) (doc : Document) (r : Except DedupError Bool)
    (st' : DedupState) (hs : cfg.strategy = "embedding")
    (h : IsDuplicate L cfg st doc none r st') :
    r = .error .missingEmbedding ∧ st' = st := by
  cases h with
  | md5 x hs' =>
    rw [hs] at hs'
    exact absurd hs' (by decide)
  | simhash x hs' =>
    rw [hs] at hs'
    exact absurd hs' (by decide)
  | embeddingMissing hs' => exact ⟨rfl, rfl⟩
  | unknown x h1' h2' h3' => exact absurd hs h3'

/-- Witness for C8: a concrete embedding-strategy call without a vector
produces the error and leaves the empty state untouched. -/
theorem missing_vector_usage_error_witness :
    ((.error .missingEmbedding : Except DedupError Bool)
      = .error .missingEmbedding) ∧
    (⟨[], [], []⟩ : DedupState) = ⟨[], [], []⟩ :=
  missing_vector_usage_error ⟨fun s => s, fun _ => 0, fun _ _ => 0⟩
    ⟨"embedding", 1, 3, 1⟩ ⟨[], [], []⟩ ⟨"t", "d", []⟩ _ _ rfl
    (IsDuplicate.embeddingMissing ⟨[], [], []⟩ ⟨"t", "d", []⟩ rfl)

/-! ## Ingestion orchestration (`RAGEngine.ingest`, `backend upload_file`)

Both ingestion entry points run, per document, the loop

    valid_chunks = [chunk for chunk in chunks
                    if not deduplicator.is_duplicate(chunk)]
    if not valid_chunks: continue
    embeddings = embedder.embed([c['text'] for c in valid_chunks])
    milvus_client.insert(valid_chunks, embeddings)

`is_duplicate` is called without a vector, which is the computable
fragment of the dispatcher; the embedding and storage collaborators are
external, so the model exposes exactly the arguments that would be
passed to them. -/

/-- `Deduplicator.is_duplicate(chunk)` with no embedding argument: the
md5 and simhash strategies run normally, the embedding strategy raises
the usage `ValueError`, an unknown strategy raises `ValueError`. -/
def isDuplicateNoVec (L : HashLib) (cfg : DedupConfig) (st : DedupState)
    (doc : Document) : Except DedupError (Bool × DedupState) :=
  if cfg.strategy = "md5" then
    .ok ((isMd5Duplicate L st.seen_md5s doc.text).1,
      { st with seen_md5s := (isMd5Duplicate L st.seen_md5s doc.text).2 })
  else if cfg.strategy = "simhash" then
    .ok ((isSimhashDuplicate L cfg.simhash_threshold st.seen_simhashes
        doc.text).1,
      { st with seen_simhashes := (isSimhashDuplicate L
          cfg.simhash_threshold st.seen_simhashes doc.text).2 })
  else if cfg.strategy = "embedding" then .error .missingEmbedding
  else .error .unknownStrategy

/-- The function `isDuplicateNoVec` agrees with the step relation
`IsDuplicate` on vector-less calls. -/
theorem isDuplicateNoVec_sound (L : HashLib) (cfg : DedupConfig)
    (st : DedupState) (doc : Document) :
    (∀ b st', isDuplicateNoVec L cfg st doc = .ok (b, st') →
      IsDuplicate L cfg st doc none (.ok b) st') ∧
    (∀ e, isDuplicateNoVec L cfg st doc = .error e →
      IsDuplicate L cfg st doc none (.error e) st) := by
  unfold isDuplicateNoVec
  by_cases h1 : cfg.strategy = "md5"
  · rw [if_pos h1]
    constructor
    · intro b st' h
      injection h with h'
      obtain ⟨hb, hst⟩ : _ ∧ _ := by
        simpa [Prod.mk.injEq] using h'
      rw [← hb, ← hst]
      exact @IsDuplicate.md5 L cfg st doc none h1
    · intro e h
      cases h
  · rw [if_neg h1]
    by_cases h2 : cfg.strategy = "simhash"
    · rw [if_pos h2]
      constructor
      · intro b st' h
        injection h with h'
        obtain ⟨hb, hst⟩ : _ ∧ _ := by
          simpa [Prod.mk.injEq] using h'
        rw [← hb, ← hst]
        exact @IsDuplicate.simhash L cfg st doc none h2
      · intro e h
        cases h
    · rw [if_neg h2]
      by_cases h3 : cfg.strategy = "embedding"
      · rw [if_pos h3]
        constructor
        · intro b st' h
          cases h
        · intro e h
          injection h with h'
          rw [← h']
          exact IsDuplicate.embeddingMissing st doc h3
      · rw [if_neg h3]
        constructor
        · intro b st' h
          cases h
        · intro e h
          injection h with h'
          rw [← h']
          exact IsDuplicate.unknown st doc none h1 h2 h3

/-- The per-document dedup filter loop of both ingestion entry points:
keep the chunks the stateful check accepts, thread the deduplicator
state, propagate its error (which aborts the document). -/
def dedupFilter (L : HashLib) (cfg : DedupConfig) :
    DedupState → List Document →
    Except DedupError (List Document × DedupState)
  | st, [] => .ok ([], st)
  | st, d :: ds =>
    match isDuplicateNoVec L cfg st d with
    | .error e => .error e
    | .ok (true, st1) => dedupFilter L cfg st1 ds
    | .ok (false, st1) =>
      match dedupFilter L cfg st1 ds with
      | .error e => .error e
      | .ok (v, st') => .ok (d :: v, st')

/-- One document's ingestion after splitting (and LLM processing, an
external collaborator): dedup-filter the chunks; when nothing survives,
skip the embed and insert calls (`none`); otherwise return exactly the
texts passed to the embedding collaborator and the chunks passed to
storage. -/
def ingestDocument (L : HashLib) (cfg : DedupConfig) (st : DedupState)
    (chunks : List Document) :
    Except DedupError (Option (List String × List Document) × DedupState) :=
  match dedupFilter L cfg st chunks with
  | .error e => .error e
  | .ok (valid, st') =>
    if valid.isEmpty then .ok (none, st')
    else .ok (some (valid.map Document.text, valid), st')

/-- Spec-side transcript of the dedup filter: each processed chunk is
either flagged duplicate at its turn (and dropped) or accepted (and
kept, in order). -/
inductive DedupTrace (L : HashLib) (cfg : DedupConfig) :
    DedupState → List Document → List Document → DedupState → Prop where
  | nil (st : DedupState) : DedupTrace L cfg st [] [] st
  | dup (st st1 st' : DedupState) (d : Document) (ds v : List Document)
      (h : isDuplicateNoVec L cfg st d = .ok (true, st1))
      (ht : DedupTrace L cfg st1 ds v st') :
      DedupTrace L cfg st (d :: ds) v st'
  | keep (st st1 st' : DedupState) (d : Document) (ds v : List Document)
      (h : isDuplicateNoVec L cfg st d = .ok (false, st1))
      (ht : DedupTrace L cfg st1 ds v st') :
      DedupTrace L cfg st (d :: ds) (d :: v) st'

theorem dedupFilter_toTrace (L : HashLib) (cfg : DedupConfig) :
    ∀ (docs : List Document) (st : DedupState) (v : List Document)
      (st' : DedupState), dedupFilter L cfg st docs = .ok (v, st') →
      DedupTrace L cfg st docs v st' ∧ v.Sublist docs := by
  intro docs
  induction docs with
  | nil =>
    intro st v st' h
    rw [dedupFilter] at h
    injection h with h'
    injection h' with h1 h2
    subst h1
    subst h2
    exact ⟨DedupTrace.nil st, List.nil_sublist _⟩
  | cons d ds ih =>
    intro st v st' h
    rw [dedupFilter] at h
    cases hstep : isDuplicateNoVec L cfg st d with
    | error e =>
      rw [hstep] at h
      cases h
    | ok p =>
      obtain ⟨b, st1⟩ := p
      rw [hstep] at h
      cases b with
      | true =>
        dsimp only at h
        obtain ⟨ht, hsub⟩ := ih st1 v st' h
        exact ⟨DedupTrace.dup st st1 st' d ds v hstep ht,
          hsub.trans (List.sublist_cons_self d ds)⟩
      | false =>
        dsimp only at h
        cases hrec : dedupFilter L cfg st1 ds with
        | error e =>
          rw [hrec] at h
          cases h
        | ok q =>
          obtain ⟨v0, st0⟩ := q
          rw [hrec] at h
          dsimp only at h
          injection h with h'
          injection h' with h1 h2
          subst h1
          subst h2
          obtain ⟨ht, hsub⟩ := ih st1 v0 st0 hrec
          exact ⟨DedupTrace.keep st st1 st0 d ds v0 hstep ht,
            hsub.cons_cons d⟩

/-- Claim C9: during ingestion, deduplication runs strictly before
embedding.  Whenever a document's ingestion reaches the embedding and
storage collaborators, the texts sent to the embedder and the chunks
sent to storage are exactly the chunks the stateful dedup filter
accepted, in order (a sublist of the processed chunks); every chunk
`is_duplicate` flagged is dropped before either call, as the transcript
records. -/
theorem ingestion_dedup_before_embedding (L : HashLib) (cfg : DedupConfig)
    (st : DedupState) (chunks : List Document) (embTexts : List String)
    (stored : List Document) (st' : DedupState)
    (h : ingestDocument L cfg st chunks
      = .ok (some (embTexts, stored), st')) :
    ∃ valid : List Document,
      DedupTrace L cfg st chunks valid st' ∧
      valid.Sublist chunks ∧
      stored = valid ∧
      embTexts = valid.map Document.text ∧
      valid ≠ [] := by
  unfold ingestDocument at h
  cases hf : dedupFilter L cfg st chunks with
  | error e =>
    rw [hf] at h
    cases h
  | ok p =>
    obtain ⟨valid, st1⟩ := p
    rw [hf] at h
    dsimp only at h
    by_cases hv : valid.isEmpty
    · rw [if_pos hv] at h
      injection h with h'
      injection h' with h1 h2
      cases h1
    · rw [if_neg hv] at h
      injection h with h'
      injection h' with h1 h2
      injection h1 with h3
      injection h3 with h4 h5
      subst h2
      subst h4
      subst h5
      obtain ⟨ht, hsub⟩ := dedupFilter_toTrace L cfg chunks st valid st1 hf
      refine ⟨valid, ht, hsub, rfl, rfl, ?_⟩
      simpa [List.isEmpty_iff] using hv

/-- Witness for C9: two identical chunks under the md5 strategy; the
duplicate is dropped, only the first chunk's text is embedded and only
the first chunk is stored. -/
theorem ingestion_dedup_before_embedding_witness :
    ∃ valid : List Document,
      DedupTrace ⟨fun s => s, fun _ => 0, fun _ _ => 0⟩ ⟨"md5", 1, 3, 1⟩
        ⟨[], [], []⟩ [⟨"t", "d", []⟩, ⟨"t", "d", []⟩] valid
        ⟨["t"], [], []⟩ ∧
      valid.Sublist [⟨"t", "d", []⟩, ⟨"t", "d", []⟩] ∧
      [(⟨"t", "d", []⟩ : Document)] = valid ∧
      ["t"] = valid.map Document.text ∧
      valid ≠ [] :=
  ingestion_dedup_before_embedding ⟨fun s => s, fun _ => 0, fun _ _ => 0⟩
    ⟨"md5", 1, 3, 1⟩ ⟨[], [], []⟩ [⟨"t", "d", []⟩, ⟨"t", "d", []⟩]
    ["t"] [⟨"t", "d", []⟩] ⟨["t"], [], []⟩ rfl

/-! ## Reranker (`retrieval/reranker.py`)

The TF-IDF machinery (sklearn) is external: the lexical scorer enters
as a parameter `lex corpus query text`, the per-candidate dot-product
score that `_bm25_rerank` reads off the fitted matrix; two candidates
with identical content necessarily receive identical scores because the
score is a function of the corpus, the query and the candidate text.
Scores and weights are rationals (float arithmetic idealized). -/

structure RerankerConfig where
  mode : String
  w_ann : Option ℚ
  w_bm25 : Option ℚ
deriving DecidableEq, Repr

structure Candidate where
  content : String
  distance : Option ℚ
deriving DecidableEq, Repr

/-- A candidate dict after a rerank pass copied it and added the
`bm25_score` and `final_score` keys. -/
structure ScoredCandidate where
  cand : Candidate
  bm25_score : ℚ
  final_score : ℚ
deriving DecidableEq, Repr

/-- The lexical scores `_bm25_rerank` computes for the candidate set. -/
def lexScores (lex : List String → String → String → ℚ) (q : String)
    (cands : List Candidate) : List ℚ :=
  cands.map (fun c => lex (cands.map Candidate.content) q c.content)

/-- `Reranker._bm25_rerank`: score each candidate against the query over
the corpus `{candidate contents} ∪ {query}` and set both `bm25_score`
and `final_score` to it. -/
def bm25Rerank (lex : List String → String → String → ℚ) (q : String)
    (cands : List Candidate) : List ScoredCandidate :=
  cands.map (fun c =>
    ⟨c, lex (cands.map Candidate.content) q c.content,
      lex (cands.map Candidate.content) q c.content⟩)

/-- `np.max` / `np.min` on a score array (the reranker only evaluates
them on non-empty candidate sets). -/
def maxListQ : List ℚ → ℚ
  | [] => 0
  | h :: t => t.foldl max h

def minListQ : List ℚ → ℚ
  | [] => 0
  | h :: t => t.foldl min h

/-- `Reranker._mixed_rerank`: ann scores are the candidates' `distance`
values (default 0, used as-is for the IP metric); bm25 scores are
min-max normalized to `[0,1]`, or all zero when max equals min; the
final score is the weighted sum with weights `ann` (default 0.7) and
`bm25` (default 0.3). -/
def mixedRerank (lex : List String → String → String → ℚ)
    (cfg : RerankerConfig) (q : String) (cands : List Candidate) :
    List ScoredCandidate :=
  let annScores := cands.map (fun c => c.distance.getD 0)
  let bm25R := bm25Rerank lex q cands
  let bm25Scores := bm25R.map ScoredCandidate.bm25_score
  let mn := minListQ bm25Scores
  let mx := maxListQ bm25Scores
  let normalized :=
    if mx ≠ mn then bm25Scores.map (fun x => (x - mn) / (mx - mn))
    else bm25Scores.map (fun _ => 0)
  let wAnn := cfg.w_ann.getD (7 / 10)
  let wB := cfg.w_bm25.getD (3 / 10)
  let finalScores := List.zipWith (fun a n => wAnn * a + wB * n)
    annScores normalized
  List.zipWith (fun sc f => { sc with final_score := f }) bm25R finalScores

inductive RerankError where
  | unknownMode
deriving DecidableEq, Repr

/-- `Reranker.rerank`: empty candidate list returns immediately; the
`cross_encoder` mode is served by the BM25 path, `embedding_bm25_mixed`
by the mixed path, anything else raises `ValueError`; the result is
sorted by `final_score` descending (Python's stable `list.sort` with
`reverse=True`). -/
def rerank (lex : List String → String → String → ℚ)
    (cfg : RerankerConfig) (q : String) (cands : List Candidate) :
    Except RerankError (List ScoredCandidate) :=
  if cands.isEmpty then .ok []
  else if cfg.mode = "cross_encoder" then
    .ok ((bm25Rerank lex q cands).mergeSort
      (fun a b => decide (b.final_score ≤ a.final_score)))
  else if cfg.mode = "embedding_bm25_mixed" then
    .ok ((mixedRerank lex cfg q cands).mergeSort
      (fun a b => decide (b.final_score ≤ a.final_score)))
  else .error .unknownMode

theorem zipWith_map_same {α β γ δ : Type _} (f : β → γ → δ) (g : α → β)
    (h : α → γ) (l : List α) :
    List.zipWith f (l.map g) (l.map h) = l.map (fun x => f (g x) (h x)) := by
  induction l with
  | nil => rfl
  | cons a t ih => simp [ih]

theorem zipWith_map_right_same {α γ δ : Type _} (f : α → γ → δ) (h : α → γ)
    (l : List α) :
    List.zipWith f l (l.map h) = l.map (fun x => f x (h x)) := by
  induction l with
  | nil => rfl
  | cons a t ih => simp [ih]

/-- `_mixed_rerank` computed candidate-wise: each candidate keeps its
lexical score and receives
`final = w_ann · ann + w_bm25 · normalized-lexical`. -/
theorem mixedRerank_eq (lex : List String → String → String → ℚ)
    (cfg : RerankerConfig) (q : String) (cands : List Candidate) :
    mixedRerank lex cfg q cands
      = List.zipWith (fun c l => (⟨c, l,
          cfg.w_ann.getD (7 / 10) * c.distance.getD 0
            + cfg.w_bm25.getD (3 / 10) *
              (if maxListQ (lexScores lex q cands)
                  = minListQ (lexScores lex q cands) then 0
               else (l - minListQ (lexScores lex q cands))
                 / (maxListQ (lexScores lex q cands)
                   - minListQ (lexScores lex q cands)))⟩ : ScoredCandidate))
        cands (lexScores lex q cands) := by
  unfold mixedRerank bm25Rerank lexScores
  simp only [List.map_map, Function.comp_def]
  rw [zipWith_map_right_same]
  by_cases hc : maxListQ (cands.map (fun c =>
      lex (cands.map Candidate.content) q c.content))
      = minListQ (cands.map (fun c =>
        lex (cands.map Candidate.content) q c.content))
  · rw [if_neg (by simpa using hc)]
    rw [zipWith_map_same, zipWith_map_same]
    apply List.map_congr_left
    intro c _
    rw [if_pos hc]
  · rw [if_pos hc]
    rw [zipWith_map_same, zipWith_map_same]
    apply List.map_congr_left
    intro c _
    rw [if_neg hc]

/-- Claim C5: in mixed mode, `rerank` assigns every candidate
`final_score = w_ann · ann_score + w_lexical · normalized_lexical`,
where the lexical scores are min-max normalized into `[0,1]` across the
candidate set and defined as 0 for every candidate when all lexical
scores are equal, and returns the candidates sorted descending by
`final_score`: the output is a permutation of the candidate-wise scored
list and every adjacent pair is in descending order. -/
theorem mixed_rerank_weighted_sort (lex : List String → String → String → ℚ)
    (cfg : RerankerConfig) (q : String) (cands : List Candidate)
    (hm : cfg.mode = "embedding_bm25_mixed") (hne : cands ≠ []) :
    ∃ out : List ScoredCandidate,
      rerank lex cfg q cands = .ok out ∧
      List.Sorted (fun a b : ScoredCandidate =>
        b.final_score ≤ a.final_score) out ∧
      out.Perm (List.zipWith (fun c l => (⟨c, l,
          cfg.w_ann.getD (7 / 10) * c.distance.getD 0
            + cfg.w_bm25.getD (3 / 10) *
              (if maxListQ (lexScores lex q cands)
                  = minListQ (lexScores lex q cands) then 0
               else (l - minListQ (lexScores lex q cands))
                 / (maxListQ (lexScores lex q cands)
                   - minListQ (lexScores lex q cands)))⟩ : ScoredCandidate))
        cands (lexScores lex q cands)) := by
  refine ⟨(mixedRerank lex cfg q cands).mergeSort
    (fun a b => decide (b.final_score ≤ a.final_score)), ?_, ?_, ?_⟩
  · unfold rerank
    rw [if_neg (by simpa [List.isEmpty_iff] using hne),
      if_neg (by rw [hm]; decide), if_pos hm]
  · have hP := @List.sorted_mergeSort ScoredCandidate
      (fun a b => decide (b.final_score ≤ a.final_score))
      (fun a b c h1 h2 => by
        simp only [decide_eq_true_eq] at h1 h2 ⊢
        exact le_trans h2 h1)
      (fun a b => by
        simp only [Bool.or_eq_true, decide_eq_true_eq]
        exact le_total b.final_score a.final_score)
      (mixedRerank lex cfg q cands)
    unfold List.Sorted
    simpa using hP
  · exact (List.mergeSort_perm (mixedRerank lex cfg q cands) _).trans
      (mixedRerank_eq lex cfg q cands ▸ List.Perm.refl _)

/-- Witness for C5, the spec scenario: weights `{ann: 0.7, bm25: 0.3}`,
two candidates with ann scores 0.9 and 0.5 and identical content (so
their lexical scores tie and normalize to 0): the general theorem
applies, and the per-candidate final scores are `0.63` and `0.35`, so
the candidate with ann score 0.9 outranks the other. -/
theorem mixed_rerank_weighted_sort_witness :
    (∃ out : List ScoredCandidate,
      rerank (fun _ _ _ => 1) ⟨"embedding_bm25_mixed", some (7 / 10),
        some (3 / 10)⟩ "q" [⟨"same", some (9 / 10)⟩, ⟨"same", some (5 / 10)⟩]
        = .ok out ∧
      List.Sorted (fun a b : ScoredCandidate =>
        b.final_score ≤ a.final_score) out ∧
      out.Perm (List.zipWith (fun c l => (⟨c, l,
          (some (7 / 10) : Option ℚ).getD (7 / 10) * c.distance.getD 0
            + (some (3 / 10) : Option ℚ).getD (3 / 10) *
              (if maxListQ (lexScores (fun _ _ _ => 1) "q"
                    [⟨"same", some (9 / 10)⟩, ⟨"same", some (5 / 10)⟩])
                  = minListQ (lexScores (fun _ _ _ => 1) "q"
                    [⟨"same", some (9 / 10)⟩, ⟨"same", some (5 / 10)⟩])
                then 0
               else (l - minListQ (lexScores (fun _ _ _ => 1) "q"
                    [⟨"same", some (9 / 10)⟩, ⟨"same", some (5 / 10)⟩]))
                 / (maxListQ (lexScores (fun _ _ _ => 1) "q"
                    [⟨"same", some (9 / 10)⟩, ⟨"same", some (5 / 10)⟩])
                   - minListQ (lexScores (fun _ _ _ => 1) "q"
                    [⟨"same", some (9 / 10)⟩,
                      ⟨"same", some (5 / 10)⟩])))⟩ : ScoredCandidate))
        [⟨"same", some (9 / 10)⟩, ⟨"same", some (5 / 10)⟩]
        (lexScores (fun _ _ _ => 1) "q"
          [⟨"same", some (9 / 10)⟩, ⟨"same", some (5 / 10)⟩]))) ∧
    mixedRerank (fun _ _ _ => 1) ⟨"embedding_bm25_mixed", some (7 / 10),
        some (3 / 10)⟩ "q" [⟨"same", some (9 / 10)⟩, ⟨"same", some (5 / 10)⟩]
      = [⟨⟨"same", some (9 / 10)⟩, 1, 63 / 100⟩,
         ⟨⟨"same", some (5 / 10)⟩, 1, 35 / 100⟩] ∧
    (35 : ℚ) / 100 < 63 / 100 := by
  refine ⟨mixed_rerank_weighted_sort (fun _ _ _ => 1)
    ⟨"embedding_bm25_mixed", some (7 / 10), some (3 / 10)⟩ "q"
    [⟨"same", some (9 / 10)⟩, ⟨"same", some (5 / 10)⟩] rfl (by simp), ?_, ?_⟩
  · norm_num [mixedRerank, bm25Rerank, maxListQ, minListQ]
  · norm_num
